import Mathlib

/-!
Verification of the UEC_PV embedding/clustering core (`uecpv/uec_.py`).

The numeric kernels are shallowly embedded over `ℚ` (real arithmetic, no
floating-point rounding).  Transcendental float operations that the kernels
call (`np.exp`, `np.log2`, `pow` with a non-integer exponent) are passed in
as oracle functions `fexp`, `flog2`, `powf : ℚ → ℚ → ℚ`; every theorem below
holds for an arbitrary oracle, so it holds in particular for the real
`exp`/`log2`/`pow`.  `pow(x, -1.0)` is modelled exactly as `1/x`.
-/

namespace UECPV

/-- `SMOOTH_K_TOLERANCE = 1e-5` (uec_.py line 58). -/
def SMOOTH_K_TOLERANCE : ℚ := 1 / 100000

/-- `MIN_K_DIST_SCALE = 1e-3` (uec_.py line 59). -/
def MIN_K_DIST_SCALE : ℚ := 1 / 1000

/-- `clip` (uec_.py lines 791-810): clamp a value into `[-4, 4]`. -/
def clip (val : ℚ) : ℚ :=
  if val > 4 then 4 else if val < -4 then -4 else val

/-- `clip_clust` (uec_.py lines 770-789): clamp a value into `[-1, 1]`;
used only for the clustering-force gradient. -/
def clip_clust (val : ℚ) : ℚ :=
  if val > 1 then 1 else if val < -1 then -1 else val

/-- `rdist` (uec_.py lines 813-830): squared euclidean distance between two
`dim`-dimensional vectors. -/
def rdist (dim : ℕ) (x y : ℕ → ℚ) : ℚ :=
  ∑ d ∈ Finset.range dim, (x d - y d) ^ 2

/-- Soft-assignment kernel `S` (uec_.py lines 864-877):
`q[i,k] = pow(1 + a * pow(rdist(z_i, mu_k), b), -1.0)`.  The inner float
`pow` is the oracle `powf`; the outer `pow(.., -1.0)` is exact inversion. -/
def S (powf : ℚ → ℚ → ℚ) (dim : ℕ) (embedding centroids : ℕ → ℕ → ℚ)
    (a b : ℚ) : ℕ → ℕ → ℚ :=
  fun i k => 1 / (1 + a * powf (rdist dim (embedding i) (centroids k)) b)

/-- Column sums `q.sum(0)` of an `n × c` matrix, as used inside `T`. -/
def colsum (n : ℕ) (q : ℕ → ℕ → ℚ) (k : ℕ) : ℚ :=
  ∑ i ∈ Finset.range n, q i k

/-- The intermediate `weight = q ** 2 / q.sum(0)` of `T` (uec_.py line 883). -/
def weight (n : ℕ) (q : ℕ → ℕ → ℚ) : ℕ → ℕ → ℚ :=
  fun i k => q i k ^ 2 / colsum n q k

/-- Target-distribution sharpening `T` (uec_.py lines 881-888):
`weight = q**2 / q.sum(0)`, `Target = (weight.T / weight.sum(1)).T`. -/
def T (n c : ℕ) (q : ℕ → ℕ → ℚ) : ℕ → ℕ → ℚ :=
  fun i k => weight n q i k / ∑ l ∈ Finset.range c, weight n q i l

/-- `alpha = 1.0` set at the top of `optimize_layout` (uec_.py line 1107). -/
def alphaOL : ℚ := 1

/-- `beta = 1.0` set at the top of `optimize_layout` (uec_.py line 1108). -/
def betaOL : ℚ := 1

/-- `etaKL = 1.0` set at the top of `optimize_layout` (uec_.py line 1106). -/
def etaKL : ℚ := 1

/-- Attraction gradient coefficient of `optimize_layout`
(uec_.py lines 1145-1156): `-2ab·d²^(b-1) / (a·d²^b + 1)` when `d² > 0`,
else `0`. -/
def attract_grad_coeff (powf : ℚ → ℚ → ℚ) (a b d2 : ℚ) : ℚ :=
  if 0 < d2 then (-2 * a * b * powf d2 (b - 1)) / (a * powf d2 b + 1) else 0

/-- Per-coordinate attraction step `grad_d = clip(grad_coeff * (current[d] -
other[d]))` (uec_.py line 1160); the coordinate then moves by
`grad_d * etaCE * alpha`. -/
def attract_grad_d (powf : ℚ → ℚ → ℚ) (a b d2 cur oth : ℚ) : ℚ :=
  clip (attract_grad_coeff powf a b d2 * (cur - oth))

/-- Negative-sampling gradient coefficient for `d² > 0`
(uec_.py lines 1186-1190): `2γb / ((0.001 + d²) · (a·d²^b + 1))`. -/
def neg_grad_coeff (powf : ℚ → ℚ → ℚ) (gamma a b d2 : ℚ) : ℚ :=
  2 * gamma * b / ((1 / 1000 + d2) * (a * powf d2 b + 1))

/-- Control flow of the negative-sampling branch (uec_.py lines 1185-1194):
`some grad_coeff` when the sample is processed, `none` when the
`elif j == k: continue` branch skips it. -/
def neg_branch (powf : ℚ → ℚ → ℚ) (gamma a b d2 : ℚ) (j k : ℕ) : Option ℚ :=
  if 0 < d2 then some (neg_grad_coeff powf gamma a b d2)
  else if j = k then none
  else some 0

/-- Per-coordinate negative-sampling step (uec_.py lines 1196-1203):
`clip(grad_coeff * (current[d] - other[d]))` when `grad_coeff > 0`, else the
fixed nudge `4.0`; the coordinate then moves by `grad_d * etaCE`. -/
def neg_grad_d (gc cur oth : ℚ) : ℚ :=
  if 0 < gc then clip (gc * (cur - oth)) else 4

/-- Clustering-force gradient coefficient (uec_.py lines 1209-1217):
`2ab·d²^(b-1) / (a·d²^b + 1)` when `d² > 0`, else `0`. -/
def clust_grad_coeff (powf : ℚ → ℚ → ℚ) (a b d2 : ℚ) : ℚ :=
  if 0 < d2 then (2 * a * b * powf d2 (b - 1)) / (a * powf d2 b + 1) else 0

/-- Per-coordinate clustering-force update (uec_.py lines 1221-1222):
`clip_clust(grad_coeff) * beta * etaKL * 1e-5` (identical on every axis). -/
def clust_update (powf : ℚ → ℚ → ℚ) (a b d2 : ℚ) : ℚ :=
  clip_clust (clust_grad_coeff powf a b d2) * betaOL * etaKL * (1 / 100000)

/-- Value model for numpy float results: `nan`, `±inf`, or a finite value.
Only the behaviour around division by zero is needed. -/
inductive NpVal where
  | nan : NpVal
  | pinf : NpVal
  | ninf : NpVal
  | val : ℚ → NpVal
  deriving DecidableEq

/-- Numpy float division: `0/0 = nan`, `x/0 = ±inf` for `x ≠ 0`. -/
def npDiv (x y : ℚ) : NpVal :=
  if y = 0 then (if x = 0 then .nan else if 0 < x then .pinf else .ninf)
  else .val (x / y)

/-- Scalar times a numpy value (`n_epochs * (weights / weights.max())`). -/
def npMulScalar (c : ℚ) : NpVal → NpVal
  | .nan => .nan
  | .pinf => if 0 < c then .pinf else if c < 0 then .ninf else .nan
  | .ninf => if 0 < c then .ninf else if c < 0 then .pinf else .nan
  | .val q => .val (c * q)

/-- The numpy comparison `v > 0` (false on `nan`). -/
def npGtZero : NpVal → Bool
  | .pinf => true
  | .val q => decide (0 < q)
  | _ => false

/-- Scalar divided by a numpy value (`n_epochs / n_samples[...]`). -/
def npDivBy (x : ℚ) : NpVal → NpVal
  | .nan => .nan
  | .pinf => .val 0
  | .ninf => .val 0
  | .val q => npDiv x q

/-- `weights.max()` over the `m` entries of the weight vector. -/
def arrMax (m : ℕ) (w : ℕ → ℚ) : ℚ :=
  (((List.range m).map w).maximum).getD 0

/-- `make_epochs_per_sample` (uec_.py lines 745-768): start from the `-1`
sentinel, set `n_epochs / n_samples[i]` wherever
`n_samples = n_epochs * (weights / weights.max())` is `> 0`. -/
def make_epochs_per_sample (m : ℕ) (weights : ℕ → ℚ) (n_epochs : ℚ) :
    ℕ → NpVal :=
  fun i =>
    let nsamp := npMulScalar n_epochs (npDiv (weights i) (arrMax m weights))
    if npGtZero nsamp then npDivBy n_epochs nsamp else .val (-1)

lemma abs_clip_le_four (x : ℚ) : |clip x| ≤ 4 := by
  unfold clip
  split_ifs with h1 h2
  · norm_num
  · norm_num
  · rw [abs_le]; constructor <;> linarith

lemma abs_clip_clust_le_one (x : ℚ) : |clip_clust x| ≤ 1 := by
  unfold clip_clust
  split_ifs with h1 h2
  · norm_num
  · norm_num
  · rw [abs_le]; constructor <;> linarith

lemma clip_zero : clip 0 = 0 := by norm_num [clip]

lemma clip_clust_zero : clip_clust 0 = 0 := by norm_num [clip_clust]

/-- C5: in every epoch of the joint optimizer, a per-coordinate attraction
step and a per-coordinate negative-sampling step (for any gradient
coefficient the code can produce, before the `etaCE ≤ 1` learning-rate
scaling) have magnitude at most `4`, and a clustering-force update has
magnitude at most its `±1` clip bound. -/
theorem gradient_clip_bounds (powf : ℚ → ℚ → ℚ) (a b d2 gc cur oth : ℚ) :
    |attract_grad_d powf a b d2 cur oth| ≤ 4 ∧
    |neg_grad_d gc cur oth| ≤ 4 ∧
    |clust_update powf a b d2| ≤ 1 := by
  refine ⟨abs_clip_le_four _, ?_, ?_⟩
  · unfold neg_grad_d
    split_ifs
    · exact abs_clip_le_four _
    · norm_num
  · unfold clust_update
    have h := abs_clip_clust_le_one (clust_grad_coeff powf a b d2)
    rw [abs_mul, abs_mul, abs_mul]
    have h4 : |betaOL| = 1 := by norm_num [betaOL]
    have h5 : |etaKL| = 1 := by norm_num [etaKL]
    have h6 : |(1 / 100000 : ℚ)| = 1 / 100000 := by norm_num
    rw [h4, h5, h6]
    nlinarith [abs_nonneg (clip_clust (clust_grad_coeff powf a b d2))]

/-- C8: at squared distance exactly `0`, the negative-sampling branch with
`j ≠ k` is not skipped, its per-coordinate step is the fixed nonzero nudge
`4.0` on every axis, while the attraction step and the clustering-force
update are both `0`. -/
theorem zero_sq_distance_behavior (powf : ℚ → ℚ → ℚ) (a b gamma cur oth : ℚ)
    (j k : ℕ) (hjk : j ≠ k) :
    neg_branch powf gamma a b 0 j k = some 0 ∧
    neg_grad_d 0 cur oth = 4 ∧ neg_grad_d 0 cur oth ≠ 0 ∧
    attract_grad_d powf a b 0 cur oth = 0 ∧
    clust_update powf a b 0 = 0 := by
  have hb : neg_branch powf gamma a b 0 j k = some 0 := by
    unfold neg_branch
    rw [if_neg (by norm_num), if_neg hjk]
  have hd : neg_grad_d 0 cur oth = 4 := by
    unfold neg_grad_d
    rw [if_neg (by norm_num)]
  refine ⟨hb, hd, by rw [hd]; norm_num, ?_, ?_⟩
  · unfold attract_grad_d attract_grad_coeff
    rw [if_neg (by norm_num)]
    rw [zero_mul, clip_zero]
  · unfold clust_update clust_grad_coeff
    rw [if_neg (by norm_num)]
    rw [clip_clust_zero, zero_mul, zero_mul, zero_mul]

/-- Witness for `zero_sq_distance_behavior` at `j = 0`, `k = 1`. -/
theorem zero_sq_distance_behavior_witness :
    (0 : ℕ) ≠ 1 ∧
    (neg_branch (fun _ _ => 1) 1 1 1 0 0 1 = some 0 ∧
      neg_grad_d 0 0 0 = 4 ∧ neg_grad_d 0 0 0 ≠ 0 ∧
      attract_grad_d (fun _ _ => 1) 1 1 0 0 0 = 0 ∧
      clust_update (fun _ _ => 1) 1 1 0 = 0) :=
  ⟨by decide, zero_sq_distance_behavior (fun _ _ => 1) 1 1 1 0 0 0 1 (by decide)⟩

/-- C4: every row of the sharpened target distribution `T q` sums to `1`
when `q` has positive entries (as the kernel `S` produces). -/
theorem target_rows_sum_one (n c : ℕ) (q : ℕ → ℕ → ℚ) (hc : 0 < c)
    (hq : ∀ i < n, ∀ k < c, 0 < q i k) :
    ∀ i < n, ∑ k ∈ Finset.range c, T n c q i k = 1 := by
  intro i hi
  have hcol : ∀ k, k < c → 0 < colsum n q k := by
    intro k hk
    unfold colsum
    apply Finset.sum_pos
    · intro x hx
      exact hq x (Finset.mem_range.mp hx) k hk
    · exact ⟨i, Finset.mem_range.mpr hi⟩
  have hw : ∀ k, k < c → 0 < weight n q i k := by
    intro k hk
    exact div_pos (pow_pos (hq i hi k hk) 2) (hcol k hk)
  have hWs : 0 < ∑ l ∈ Finset.range c, weight n q i l := by
    apply Finset.sum_pos
    · intro x hx
      exact hw x (Finset.mem_range.mp hx)
    · exact ⟨0, Finset.mem_range.mpr hc⟩
  unfold T
  rw [← Finset.sum_div]
  exact div_self (ne_of_gt hWs)

/-- Witness for `target_rows_sum_one` on the 1×1 matrix with entry `1`. -/
theorem target_rows_sum_one_witness :
    (0 < 1 ∧ (∀ i < 1, ∀ k < 1, (0 : ℚ) < 1)) ∧
    (∑ k ∈ Finset.range 1, T 1 1 (fun _ _ => 1) 0 k = 1) :=
  ⟨⟨by decide, by intro i _ k _; norm_num⟩,
    target_rows_sum_one 1 1 (fun _ _ => 1) (by decide)
      (by intro i _ k _; norm_num) 0 (by decide)⟩

/-- C6: `make_epochs_per_sample` on an all-zero weight vector: the
`0/0 = nan` comparisons leave the mask empty and every edge keeps the `-1`
never-sampled sentinel; no error is raised. -/
theorem epochs_per_sample_all_zero (m : ℕ) (w : ℕ → ℚ) (n_epochs : ℚ)
    (hw : ∀ i < m, w i = 0) :
    ∀ i < m, make_epochs_per_sample m w n_epochs i = .val (-1) := by
  intro i hi
  have hmax : arrMax m w = 0 := by
    unfold arrMax
    have hmem : (0 : ℚ) ∈ (List.range m).map w := by
      refine List.mem_map.mpr ⟨i, List.mem_range.mpr hi, hw i hi⟩
    have : ((List.range m).map w).maximum = ((0 : ℚ) : WithBot ℚ) := by
      rw [List.maximum_eq_coe_iff]
      refine ⟨hmem, ?_⟩
      intro b hb
      obtain ⟨x, hx, rfl⟩ := List.mem_map.mp hb
      rw [hw x (List.mem_range.mp hx)]
    rw [this]
    rfl
  unfold make_epochs_per_sample
  rw [hmax, hw i hi]
  have : npDiv 0 0 = .nan := by norm_num [npDiv]
  rw [this]
  rfl

/-- Witness for `epochs_per_sample_all_zero` at `m = 2`, `n_epochs = 500`. -/
theorem epochs_per_sample_all_zero_witness :
    (∀ i < 2, (fun _ : ℕ => (0 : ℚ)) i = 0) ∧
    make_epochs_per_sample 2 (fun _ => 0) 500 0 = .val (-1) :=
  ⟨by intro i _; rfl,
    epochs_per_sample_all_zero 2 (fun _ => 0) 500 (by intro i _; rfl) 0
      (by decide)⟩

/-- The filtered list `non_zero_dists = ith_distances[ith_distances > 0.0]`
of `smooth_knn_dist` (uec_.py line 124). -/
def nonZeroDists (k : ℕ) (drow : ℕ → ℚ) : List ℚ :=
  ((List.range k).map drow).filter (fun d => decide (0 < d))

/-- The `rho[i]` computation of `smooth_knn_dist` (uec_.py lines 123-138):
interpolation among the smallest non-zero neighbor distances according to
`local_connectivity`, or their maximum when fewer than `local_connectivity`
non-zero distances exist. -/
def smooth_rho (k : ℕ) (lc : ℚ) (drow : ℕ → ℚ) : ℚ :=
  let nzd := nonZeroDists k drow
  if lc ≤ (nzd.length : ℚ) then
    let index : ℤ := Int.floor lc
    let interp : ℚ := lc - index
    if 0 < index then
      nzd.getD (index - 1).toNat 0 +
        (if SMOOTH_K_TOLERANCE < interp then
          interp * (nzd.getD index.toNat 0 - nzd.getD (index - 1).toNat 0)
        else 0)
    else interp * nzd.getD 0 0
  else if 0 < nzd.length then (nzd.maximum).getD 0
  else 0

/-- The binary-search objective `psum` of `smooth_knn_dist`
(uec_.py lines 142-148): the sum over columns `1..k-1` of
`exp(-(d/mid))` for `d = dist - rho > 0`, else `1`. -/
def smooth_psum (fexp : ℚ → ℚ) (k : ℕ) (drow : ℕ → ℚ) (rho_i mid : ℚ) : ℚ :=
  ∑ j ∈ Finset.Ico 1 k,
    (if 0 < drow j - rho_i then fexp (-((drow j - rho_i) / mid)) else 1)

/-- The bounded binary search of `smooth_knn_dist` (uec_.py lines 140-163)
on state `(lo, hi, mid)` with `hi = none` meaning `∞`; returns the final
`mid`. -/
def smooth_search (fexp : ℚ → ℚ) (k : ℕ) (drow : ℕ → ℚ) (rho_i target : ℚ) :
    ℕ → ℚ × Option ℚ × ℚ → ℚ
  | 0, (_, _, mid) => mid
  | fuel + 1, (lo, hi, mid) =>
      if |smooth_psum fexp k drow rho_i mid - target| < SMOOTH_K_TOLERANCE then
        mid
      else if target < smooth_psum fexp k drow rho_i mid then
        smooth_search fexp k drow rho_i target fuel (lo, some mid, (lo + mid) / 2)
      else
        match hi with
        | none => smooth_search fexp k drow rho_i target fuel (mid, none, mid * 2)
        | some h => smooth_search fexp k drow rho_i target fuel (mid, some h, (mid + h) / 2)

/-- The `result[i]` computation of `smooth_knn_dist` (uec_.py lines 140-182):
binary-search bandwidth, then clamp from below by `MIN_K_DIST_SCALE` times
the row mean (`rho[i] > 0`) or the global mean (otherwise).  `n`/`k` is the
shape of `distances`, `kf` the float `k` parameter, `target = log2(kf) *
bandwidth` via the `flog2` oracle. -/
def smooth_sigma (fexp flog2 : ℚ → ℚ) (n k : ℕ) (kf : ℚ) (n_iter : ℕ)
    (lc bandwidth : ℚ) (dists : ℕ → ℕ → ℚ) (i : ℕ) : ℚ :=
  let target := flog2 kf * bandwidth
  let rho_i := smooth_rho k lc (dists i)
  let mid := smooth_search fexp k (dists i) rho_i target n_iter (0, none, 1)
  let mean_i := (∑ j ∈ Finset.range k, dists i j) / (k : ℚ)
  let mean_all :=
    (∑ p ∈ Finset.range n, ∑ j ∈ Finset.range k, dists p j) / ((n * k : ℕ) : ℚ)
  if 0 < rho_i then
    if mid < MIN_K_DIST_SCALE * mean_i then MIN_K_DIST_SCALE * mean_i else mid
  else
    if mid < MIN_K_DIST_SCALE * mean_all then MIN_K_DIST_SCALE * mean_all
    else mid

/-- `smooth_knn_dist` (uec_.py lines 66-184): returns `(result, rho)`. -/
def smooth_knn_dist (fexp flog2 : ℚ → ℚ) (n k : ℕ) (kf : ℚ) (n_iter : ℕ)
    (lc bandwidth : ℚ) (dists : ℕ → ℕ → ℚ) : (ℕ → ℚ) × (ℕ → ℚ) :=
  (fun i => smooth_sigma fexp flog2 n k kf n_iter lc bandwidth dists i,
    fun i => smooth_rho k lc (dists i))

/-- C7: the bandwidth `sigma[i]` returned by `smooth_knn_dist` is at least
`1e-3` times the mean of row `i`'s neighbor distances when `rho[i] > 0`,
and at least `1e-3` times the global mean of all neighbor distances when
`rho[i] = 0`. -/
theorem smooth_knn_dist_sigma_floor (fexp flog2 : ℚ → ℚ) (n k : ℕ) (kf : ℚ)
    (n_iter : ℕ) (lc bandwidth : ℚ) (dists : ℕ → ℕ → ℚ) (i : ℕ) :
    (0 < (smooth_knn_dist fexp flog2 n k kf n_iter lc bandwidth dists).2 i →
      MIN_K_DIST_SCALE * ((∑ j ∈ Finset.range k, dists i j) / (k : ℚ)) ≤
        (smooth_knn_dist fexp flog2 n k kf n_iter lc bandwidth dists).1 i) ∧
    ((smooth_knn_dist fexp flog2 n k kf n_iter lc bandwidth dists).2 i = 0 →
      MIN_K_DIST_SCALE *
          ((∑ p ∈ Finset.range n, ∑ j ∈ Finset.range k, dists p j) /
            ((n * k : ℕ) : ℚ)) ≤
        (smooth_knn_dist fexp flog2 n k kf n_iter lc bandwidth dists).1 i) := by
  constructor
  · intro hrho
    have hrho' : 0 < smooth_rho k lc (dists i) := hrho
    show MIN_K_DIST_SCALE * ((∑ j ∈ Finset.range k, dists i j) / (k : ℚ)) ≤
      smooth_sigma fexp flog2 n k kf n_iter lc bandwidth dists i
    simp only [smooth_sigma]
    rw [if_pos hrho']
    split_ifs with h
    · exact le_refl _
    · exact le_of_not_lt h
  · intro hrho
    have hrho' : smooth_rho k lc (dists i) = 0 := hrho
    show MIN_K_DIST_SCALE *
        ((∑ p ∈ Finset.range n, ∑ j ∈ Finset.range k, dists p j) /
          ((n * k : ℕ) : ℚ)) ≤
      smooth_sigma fexp flog2 n k kf n_iter lc bandwidth dists i
    simp only [smooth_sigma]
    rw [hrho', if_neg (lt_irrefl 0)]
    split_ifs with h
    · exact le_refl _
    · exact le_of_not_lt h

/-- Witness for `smooth_knn_dist_sigma_floor`: row `[0, 1]` has
`rho = 1 > 0` and the returned bandwidth is at least `1e-3` times the row
mean `1/2`. -/
theorem smooth_knn_dist_sigma_floor_witness :
    0 < (smooth_knn_dist (fun _ => 1/2) (fun _ => 2) 1 2 2 0 1 1
          (fun _ j => (j : ℚ))).2 0 ∧
    MIN_K_DIST_SCALE * ((∑ j ∈ Finset.range 2, ((j : ℚ))) / (2 : ℚ)) ≤
      (smooth_knn_dist (fun _ => 1/2) (fun _ => 2) 1 2 2 0 1 1
        (fun _ j => (j : ℚ))).1 0 := by
  have h : 0 < (smooth_knn_dist (fun _ => 1/2) (fun _ => 2) 1 2 2 0 1 1
      (fun _ j => (j : ℚ))).2 0 := by
    have he : (smooth_knn_dist (fun _ => 1/2) (fun _ => 2) 1 2 2 0 1 1
        (fun _ j => (j : ℚ))).2 0 = 1 := by
      simp [smooth_knn_dist, smooth_rho, nonZeroDists, List.range_succ,
        SMOOTH_K_TOLERANCE]
    rw [he]
    norm_num
  refine ⟨h, ?_⟩
  have := (smooth_knn_dist_sigma_floor (fun _ => 1/2) (fun _ => 2) 1 2 2 0 1 1
    (fun _ j => (j : ℚ)) 0).1 h
  simpa using this

/-- The membership value computed in the loop body of
`compute_membership_strengths` (uec_.py lines 421-431). -/
def membership_val (fexp : ℚ → ℚ) (ki : ℕ → ℕ → ℤ) (kd : ℕ → ℕ → ℚ)
    (sigmas rhos : ℕ → ℚ) (i j : ℕ) : ℚ :=
  if ki i j = (i : ℤ) then 0
  else if kd i j - rhos i ≤ 0 then 1
  else fexp (-((kd i j - rhos i) / sigmas i))

/-- One iteration of the inner loop of `compute_membership_strengths`
(uec_.py lines 418-435): `continue` on the `-1` sentinel, otherwise write
`(rows, cols, vals)` at flat position `i * n_neighbors + j`.  The three
output arrays are modelled as one array of triples, initialized to
`(0, 0, 0)` as by `np.zeros`. -/
def cms_step (fexp : ℚ → ℚ) (ki : ℕ → ℕ → ℤ) (kd : ℕ → ℕ → ℚ)
    (sigmas rhos : ℕ → ℚ) (nn i : ℕ) (st : ℕ → ℤ × ℤ × ℚ) (j : ℕ) :
    ℕ → ℤ × ℤ × ℚ :=
  if ki i j = -1 then st
  else
    Function.update st (i * nn + j)
      ((i : ℤ), ki i j, membership_val fexp ki kd sigmas rhos i j)

/-- The inner loop over neighbor slots `j` of `compute_membership_strengths`. -/
def cms_inner (fexp : ℚ → ℚ) (ki : ℕ → ℕ → ℤ) (kd : ℕ → ℕ → ℚ)
    (sigmas rhos : ℕ → ℚ) (nn i : ℕ) (st : ℕ → ℤ × ℤ × ℚ) :
    ℕ → ℤ × ℤ × ℚ :=
  (List.range nn).foldl (cms_step fexp ki kd sigmas rhos nn i) st

/-- `compute_membership_strengths` (uec_.py lines 376-437): the double loop
over samples and neighbor slots, producing the coo triplets. -/
def compute_membership_strengths (fexp : ℚ → ℚ) (n nn : ℕ)
    (ki : ℕ → ℕ → ℤ) (kd : ℕ → ℕ → ℚ) (sigmas rhos : ℕ → ℚ) :
    ℕ → ℤ × ℤ × ℚ :=
  (List.range n).foldl
    (fun st i => cms_inner fexp ki kd sigmas rhos nn i st)
    (fun _ => (0, 0, 0))

lemma flat_ne_of_fst_ne {nn i i' j j' : ℕ} (hj : j < nn) (hj' : j' < nn)
    (h : i' ≠ i) : i' * nn + j' ≠ i * nn + j := by
  intro he
  apply h
  have hnn : 0 < nn := lt_of_le_of_lt (Nat.zero_le j) hj
  have e1 : (i' * nn + j') / nn = i' := by
    rw [Nat.mul_comm, Nat.mul_add_div hnn, Nat.div_eq_of_lt hj', Nat.add_zero]
  have e2 : (i * nn + j) / nn = i := by
    rw [Nat.mul_comm, Nat.mul_add_div hnn, Nat.div_eq_of_lt hj, Nat.add_zero]
  rw [← e1, ← e2, he]

lemma cms_step_apply_ne (fexp : ℚ → ℚ) (ki : ℕ → ℕ → ℤ) (kd : ℕ → ℕ → ℚ)
    (sigmas rhos : ℕ → ℚ) (nn i : ℕ) (st : ℕ → ℤ × ℤ × ℚ) (j p : ℕ)
    (h : i * nn + j ≠ p) :
    cms_step fexp ki kd sigmas rhos nn i st j p = st p := by
  unfold cms_step
  split_ifs
  · rfl
  · exact Function.update_noteq (Ne.symm h) _ st

lemma cms_foldl_ne_all (fexp : ℚ → ℚ) (ki : ℕ → ℕ → ℤ) (kd : ℕ → ℕ → ℚ)
    (sigmas rhos : ℕ → ℚ) (nn i : ℕ) (L : List ℕ) (p : ℕ)
    (hL : ∀ x ∈ L, i * nn + x ≠ p) (st : ℕ → ℤ × ℤ × ℚ) :
    (L.foldl (cms_step fexp ki kd sigmas rhos nn i) st) p = st p := by
  induction L generalizing st with
  | nil => rfl
  | cons x xs ih =>
    rw [List.foldl_cons]
    rw [ih (fun y hy => hL y (List.mem_cons_of_mem x hy))]
    exact cms_step_apply_ne fexp ki kd sigmas rhos nn i st x p
      (hL x (List.mem_cons_self x xs))

lemma cms_inner_apply_untouched (fexp : ℚ → ℚ) (ki : ℕ → ℕ → ℤ)
    (kd : ℕ → ℕ → ℚ) (sigmas rhos : ℕ → ℚ) (nn i : ℕ) (p : ℕ)
    (hp : ∀ j' < nn, i * nn + j' ≠ p) (st : ℕ → ℤ × ℤ × ℚ) :
    cms_inner fexp ki kd sigmas rhos nn i st p = st p := by
  unfold cms_inner
  exact cms_foldl_ne_all fexp ki kd sigmas rhos nn i _ p
    (fun x hx => hp x (List.mem_range.mp hx)) st

lemma cms_go (fexp : ℚ → ℚ) (ki : ℕ → ℕ → ℤ) (kd : ℕ → ℕ → ℚ)
    (sigmas rhos : ℕ → ℚ) (nn i j : ℕ) :
    ∀ m, j < m → ∀ st : ℕ → ℤ × ℤ × ℚ,
      ((List.range m).foldl (cms_step fexp ki kd sigmas rhos nn i) st)
          (i * nn + j) =
        if ki i j = -1 then st (i * nn + j)
        else ((i : ℤ), ki i j, membership_val fexp ki kd sigmas rhos i j) := by
  intro m
  induction m with
  | zero => omega
  | succ m ih =>
    intro hjm st
    rw [List.range_succ, List.foldl_append, List.foldl_cons, List.foldl_nil]
    by_cases hj : j = m
    · subst hj
      have hst : ((List.range j).foldl
          (cms_step fexp ki kd sigmas rhos nn i) st) (i * nn + j) =
          st (i * nn + j) := by
        apply cms_foldl_ne_all
        intro x hx
        have := List.mem_range.mp hx
        omega
      unfold cms_step
      split_ifs
      · exact hst
      · rw [Function.update_same]
    · have hjm' : j < m := by omega
      rw [cms_step_apply_ne fexp ki kd sigmas rhos nn i _ m _ (by omega)]
      exact ih hjm' st

lemma cms_inner_apply_self (fexp : ℚ → ℚ) (ki : ℕ → ℕ → ℤ)
    (kd : ℕ → ℕ → ℚ) (sigmas rhos : ℕ → ℚ) (nn i j : ℕ) (hj : j < nn)
    (st : ℕ → ℤ × ℤ × ℚ) :
    cms_inner fexp ki kd sigmas rhos nn i st (i * nn + j) =
      if ki i j = -1 then st (i * nn + j)
      else ((i : ℤ), ki i j, membership_val fexp ki kd sigmas rhos i j) :=
  cms_go fexp ki kd sigmas rhos nn i j nn hj st

lemma cms_outer_untouched (fexp : ℚ → ℚ) (ki : ℕ → ℕ → ℤ)
    (kd : ℕ → ℕ → ℚ) (sigmas rhos : ℕ → ℚ) (nn i j : ℕ) (hj : j < nn)
    (L : List ℕ) (hL : ∀ x ∈ L, x ≠ i) (st : ℕ → ℤ × ℤ × ℚ) :
    (L.foldl (fun st i' => cms_inner fexp ki kd sigmas rhos nn i' st) st)
        (i * nn + j) = st (i * nn + j) := by
  induction L generalizing st with
  | nil => rfl
  | cons x xs ih =>
    rw [List.foldl_cons]
    rw [ih (fun y hy => hL y (List.mem_cons_of_mem x hy))]
    apply cms_inner_apply_untouched
    intro j' hj'
    exact flat_ne_of_fst_ne hj hj' (hL x (List.mem_cons_self x xs))

/-- C2: the triple recorded by `compute_membership_strengths` at flat slot
`i * n_neighbors + j`: slots whose neighbor index is the `-1` sentinel are
skipped (left at the `np.zeros` initialization), and every other slot gets
the directed edge `(i, knn_indices[i,j])` with strength `0` when the
neighbor is `i` itself, `1` when `knn_dists[i,j] - rhos[i] ≤ 0`, and
`exp(-(knn_dists[i,j] - rhos[i]) / sigmas[i])` otherwise (`exp` modelled by
the oracle `fexp`). -/
theorem membership_strengths_spec (fexp : ℚ → ℚ) (n nn : ℕ)
    (ki : ℕ → ℕ → ℤ) (kd : ℕ → ℕ → ℚ) (sigmas rhos : ℕ → ℚ) (i j : ℕ)
    (hi : i < n) (hj : j < nn) :
    compute_membership_strengths fexp n nn ki kd sigmas rhos (i * nn + j) =
      if ki i j = -1 then (0, 0, 0)
      else ((i : ℤ), ki i j,
        if ki i j = (i : ℤ) then 0
        else if kd i j - rhos i ≤ 0 then 1
        else fexp (-((kd i j - rhos i) / sigmas i))) := by
  unfold compute_membership_strengths
  have main : ∀ m, i < m →
      (((List.range m).foldl
        (fun st i' => cms_inner fexp ki kd sigmas rhos nn i' st)
        (fun _ => (0, 0, 0))) (i * nn + j)) =
      if ki i j = -1 then ((0 : ℤ), (0 : ℤ), (0 : ℚ))
      else ((i : ℤ), ki i j, membership_val fexp ki kd sigmas rhos i j) := by
    intro m
    induction m with
    | zero => omega
    | succ m ih =>
      intro him
      rw [List.range_succ, List.foldl_append, List.foldl_cons, List.foldl_nil]
      by_cases hi' : i = m
      · subst hi'
        have hst : (((List.range i).foldl
            (fun st i' => cms_inner fexp ki kd sigmas rhos nn i' st)
            (fun _ => (0, 0, 0))) (i * nn + j)) = ((0:ℤ), (0:ℤ), (0:ℚ)) := by
          apply cms_outer_untouched fexp ki kd sigmas rhos nn i j hj
          intro x hx
          have := List.mem_range.mp hx
          omega
        rw [cms_inner_apply_self fexp ki kd sigmas rhos nn i j hj, hst]
      · have him' : i < m := by omega
        have huntouched := cms_inner_apply_untouched fexp ki kd sigmas rhos
          nn m (i * nn + j)
          (fun j' hj' => flat_ne_of_fst_ne hj hj' (Ne.symm hi'))
          ((List.range m).foldl
            (fun st i' => cms_inner fexp ki kd sigmas rhos nn i' st)
            (fun _ => (0, 0, 0)))
        rw [huntouched]
        exact ih him'
  rw [main n hi]
  unfold membership_val
  split_ifs <;> rfl

/-- Witness for `membership_strengths_spec` at `n = nn = 1`, `i = j = 0`,
neighbor index `5`, distance `1`, `rho = 0`, `sigma = 1`. -/
theorem membership_strengths_spec_witness :
    compute_membership_strengths (fun _ => 1/3) 1 1 (fun _ _ => 5)
        (fun _ _ => 1) (fun _ => 1) (fun _ => 0) 0 =
      ((0 : ℤ), (5 : ℤ), (1/3 : ℚ)) := by
  have h := membership_strengths_spec (fun _ => 1/3) 1 1 (fun _ _ => 5)
    (fun _ _ => 1) (fun _ => 1) (fun _ => 0) 0 0 (by decide) (by decide)
  norm_num at h
  simpa using h

/-- Dense value of the scipy `coo_matrix` assembled from the membership
triplets (uec_.py lines 577-580): duplicate `(row, col)` entries are summed;
`eliminate_zeros` does not change the dense value. -/
def coo_entry (size : ℕ) (trip : ℕ → ℤ × ℤ × ℚ) (x y : ℕ) : ℚ :=
  ∑ p ∈ Finset.range size,
    if (trip p).1 = (x : ℤ) ∧ (trip p).2.1 = (y : ℤ) then (trip p).2.2 else 0

/-- `fuzzy_simplicial_set` (uec_.py lines 440-594) given precomputed knn
indices/distances: calibrate with `smooth_knn_dist` (defaults `n_iter = 64`,
`bandwidth = 1.0`), compute membership strengths, assemble the coo matrix
`A`, and return `mix·(A + Aᵀ - A∘Aᵀ) + (1-mix)·(A∘Aᵀ)` where `mix` is
`set_op_mix_ratio` (uec_.py lines 582-592). -/
def fuzzy_simplicial_set (fexp flog2 : ℚ → ℚ) (n nn : ℕ)
    (ki : ℕ → ℕ → ℤ) (kd : ℕ → ℕ → ℚ) (lc mix : ℚ) : ℕ → ℕ → ℚ :=
  fun x y =>
    let sr := smooth_knn_dist fexp flog2 n nn (nn : ℚ) 64 lc 1 kd
    let A := coo_entry (n * nn)
      (compute_membership_strengths fexp n nn ki kd sr.1 sr.2)
    mix * ((A x y + A y x) - A x y * A y x) + (1 - mix) * (A x y * A y x)

/-- C3: for every knn input and `set_op_mix_ratio ∈ [0,1]`, the graph
returned by `fuzzy_simplicial_set` equals its own transpose (exactly, in
the real-arithmetic model). -/
theorem fuzzy_graph_symmetric (fexp flog2 : ℚ → ℚ) (n nn : ℕ)
    (ki : ℕ → ℕ → ℤ) (kd : ℕ → ℕ → ℚ) (lc mix : ℚ)
    (_h0 : 0 ≤ mix) (_h1 : mix ≤ 1) (x y : ℕ) :
    fuzzy_simplicial_set fexp flog2 n nn ki kd lc mix x y =
      fuzzy_simplicial_set fexp flog2 n nn ki kd lc mix y x := by
  simp only [fuzzy_simplicial_set]
  ring

/-- Witness for `fuzzy_graph_symmetric` at `mix = 1/2` on a 1-point graph. -/
theorem fuzzy_graph_symmetric_witness :
    ((0 : ℚ) ≤ 1/2 ∧ (1/2 : ℚ) ≤ 1) ∧
    fuzzy_simplicial_set (fun _ => 1/2) (fun _ => 2) 1 1 (fun _ _ => 0)
        (fun _ _ => 1) 1 (1/2) 0 1 =
      fuzzy_simplicial_set (fun _ => 1/2) (fun _ => 2) 1 1 (fun _ _ => 0)
        (fun _ _ => 1) 1 (1/2) 1 0 :=
  ⟨⟨by norm_num, by norm_num⟩,
    fuzzy_graph_symmetric (fun _ => 1/2) (fun _ => 2) 1 1 (fun _ _ => 0)
      (fun _ _ => 1) 1 (1/2) (by norm_num) (by norm_num) 0 1⟩

/-- The `init` argument, as `_validate_parameters` classifies it
(uec_.py lines 1810-1829): the strings `"spectral"`/`"random"`, any other
string, an ndarray with a column count, or neither. -/
inductive InitKind where
  | spectral : InitKind
  | randomInit : InitKind
  | otherString : InitKind
  | array : ℤ → InitKind
  | nonArrayNonString : InitKind
  deriving DecidableEq

/-- The `metric` argument, as `_validate_parameters` classifies it
(uec_.py lines 1830-1835): a string (`"precomputed"` or another name), a
callable, or neither. -/
inductive MetricKind where
  | namedMetric : MetricKind
  | precomputed : MetricKind
  | customCallable : MetricKind
  | invalidMetric : MetricKind
  deriving DecidableEq

/-- The hyperparameters consulted by `_validate_parameters` and by the
`fit` entry path (uec_.py lines 1733-1788). -/
structure Params where
  n_neighbors : ℤ
  n_components : ℤ
  n_epochs : Option ℤ
  learning_rate : ℚ
  min_dist : ℚ
  spread : ℚ
  set_op_mix_ratio : ℚ
  local_connectivity : ℚ
  repulsion_strength : ℚ
  negative_sample_rate : ℤ
  target_n_neighbors : ℤ
  initKind : InitKind
  metricKind : MetricKind

/-- `_validate_parameters` (uec_.py lines 1790-1868): `false` iff one of
the `raise ValueError` branches fires (`self._initial_alpha` is
`learning_rate`, set just before validation in `fit`). -/
def validate_parameters (p : Params) : Bool :=
  !decide (p.set_op_mix_ratio < 0 ∨ 1 < p.set_op_mix_ratio) &&
  !decide (p.repulsion_strength < 0) &&
  !decide (p.spread < p.min_dist) &&
  !decide (p.min_dist < 0) &&
  !decide (p.initKind = .nonArrayNonString) &&
  !decide (p.initKind = .otherString) &&
  !(match p.initKind with
    | InitKind.array c => decide (c ≠ p.n_components)
    | _ => false) &&
  !decide (p.metricKind = .invalidMetric) &&
  !decide (p.negative_sample_rate < 0) &&
  !decide (p.learning_rate < 0) &&
  !decide (p.n_neighbors < 2) &&
  !decide (p.target_n_neighbors < 2 ∧ p.target_n_neighbors ≠ -1) &&
  !decide (p.n_components < 1) &&
  (match p.n_epochs with
    | none => true
    | some e => decide (10 < e))

/-- Outcome of the entry path of `UEC_PV.fit`. -/
inductive FitStage where
  | done : ℕ → ℕ → (ℕ → ℕ → ℚ) → FitStage
  | pipeline : FitStage

/-- Configuration error raised by `_validate_parameters`. -/
inductive FitError where
  | invalidConfig : FitError
  deriving DecidableEq

/-- Entry path of `UEC_PV.fit` (uec_.py lines 1870-1946): after parameter
validation, a dataset with `n_samples ≤ n_neighbors` and exactly one sample
gets `self.embedding_ = np.zeros((1, n_components))` and returns
immediately (`FitStage.done` with the all-zero embedding); every other
dataset continues into the graph/optimizer pipeline (`FitStage.pipeline`,
not modelled further here).  The preceding `find_ab_params` curve fit is a
deterministic external call that does not raise for valid
`spread`/`min_dist`. -/
def UEC_fit_entry (p : Params) (n_samples : ℕ) : Except FitError FitStage :=
  if validate_parameters p = false then .error .invalidConfig
  else if (n_samples : ℤ) ≤ p.n_neighbors then
    if n_samples = 1 then .ok (.done 1 p.n_components.toNat (fun _ _ => 0))
    else .ok .pipeline
  else .ok .pipeline

/-- C9: `fit` on a dataset with exactly one sample raises no error and sets
the fitted embedding to the all-zero array of shape `(1, n_components)`. -/
theorem fit_single_sample (p : Params)
    (hv : validate_parameters p = true) :
    UEC_fit_entry p 1 = .ok (.done 1 p.n_components.toNat (fun _ _ => 0)) := by
  have hconj := hv
  unfold validate_parameters at hconj
  simp only [Bool.and_eq_true, Bool.not_eq_true',
    decide_eq_false_iff_not] at hconj
  have h2 : ¬(p.n_neighbors < 2) := hconj.1.1.1.2
  have hne : ¬(validate_parameters p = false) := by simp [hv]
  unfold UEC_fit_entry
  rw [if_neg hne, if_pos (by push_cast; omega), if_pos rfl]

/-- Witness for `fit_single_sample` on near-default hyperparameters
(`n_neighbors = 15`, `n_components = 2`, `min_dist = 0`, …). -/
theorem fit_single_sample_witness :
    validate_parameters
        ⟨15, 2, none, 1, 0, 1, 1, 1, 1, 5, -1, .spectral, .namedMetric⟩
      = true ∧
    UEC_fit_entry
        ⟨15, 2, none, 1, 0, 1, 1, 1, 1, 5, -1, .spectral, .namedMetric⟩ 1
      = .ok (.done 1 2 (fun _ _ => 0)) :=
  ⟨by decide,
    fit_single_sample
      ⟨15, 2, none, 1, 0, 1, 1, 1, 1, 5, -1, .spectral, .namedMetric⟩
      (by decide)⟩

/-- The fitted state consulted by the entry path of `UEC_PV.transform`. -/
structure FittedModel where
  n_fit_samples : ℕ
  input_hash : ℕ
  embedding : ℕ → ℕ → ℚ
  sparse_data : Bool
  precomputed_metric : Bool

/-- Number of required positional parameters of `optimize_layout`
(uec_.py lines 1082-1101): `head_embedding, tail_embedding, head, tail,
n_epochs, y_pred, centroids, P, n_vertices, epochs_per_sample, a, b,
n_clusters, rng_state` — 14 in total (then keyword parameters with
defaults). -/
def optimize_layout_required_positional : ℕ := 14

/-- Number of positional arguments that `UEC_PV.transform` passes to
`optimize_layout` (uec_.py lines 2332-2348): `embedding,
self.embedding_.astype(...), head, tail, n_epochs, graph.shape[1],
epochs_per_sample, self._a, self._b, rng_state, self.repulsion_strength,
self._initial_alpha, self.negative_sample_rate` — 13 in total (plus the
`verbose` keyword). -/
def transform_call_positional : ℕ := 13

/-- Errors that `UEC_PV.transform` can raise. -/
inductive TransformError where
  | singleSample : TransformError
  | sparseInput : TransformError
  | precomputedMetric : TransformError
  | typeError : TransformError
  deriving DecidableEq

/-- Control flow of `UEC_PV.transform` (uec_.py lines 2185-2350), with the
content hash abstracted as `hashf`.  Guards in source order: the
single-sample fit error, the hash short-circuit returning the stored
embedding, the sparse-input error, the precomputed-metric error.  After
those, the neighbor search, smooth-knn calibration, membership strengths
and the weighted-average seeding run on the new batch, and the method then
calls `optimize_layout` with 13 positional arguments although the (joint)
`optimize_layout` requires 14 (`rng_state` is unbound) — a `TypeError`, so
the intermediate numeric values are irrelevant and are elided here.  Were
the call well-formed, the method body would still end without a `return`
statement (line 2350 is the last line), i.e. it would return `None`
(modelled as `.ok none`). -/
def UEC_transform (hashf : (ℕ → ℕ → ℚ) → ℕ) (m : FittedModel)
    (X : ℕ → ℕ → ℚ) : Except TransformError (Option (ℕ → ℕ → ℚ)) :=
  if m.n_fit_samples = 1 then .error .singleSample
  else if hashf X = m.input_hash then .ok (some m.embedding)
  else if m.sparse_data then .error .sparseInput
  else if m.precomputed_metric then .error .precomputedMetric
  else if transform_call_positional < optimize_layout_required_positional
    then .error .typeError
  else .ok none

/-- C10: for a model fit on more than one sample, `transform` on input
whose hash equals the stored fit-input hash returns the stored fitted
embedding unchanged, before any neighbor search or optimization. -/
theorem transform_hash_short_circuit (hashf : (ℕ → ℕ → ℚ) → ℕ)
    (m : FittedModel) (X : ℕ → ℕ → ℚ) (hn : 1 < m.n_fit_samples)
    (hh : hashf X = m.input_hash) :
    UEC_transform hashf m X = .ok (some m.embedding) := by
  unfold UEC_transform
  rw [if_neg (by omega), if_pos hh]

/-- Witness for `transform_hash_short_circuit`: a model fit on 3 samples
with stored hash `7`, transformed on input hashing to `7`. -/
theorem transform_hash_short_circuit_witness :
    1 < (3 : ℕ) ∧ (fun _ : ℕ → ℕ → ℚ => 7) (fun _ _ => (0 : ℚ)) = 7 ∧
    UEC_transform (fun _ => 7) ⟨3, 7, fun _ _ => 5, false, false⟩
        (fun _ _ => 0) =
      .ok (some (fun _ _ => (5 : ℚ))) :=
  ⟨by decide, rfl,
    transform_hash_short_circuit (fun _ => 7) ⟨3, 7, fun _ _ => 5, false, false⟩
      (fun _ _ => 0) (by decide) rfl⟩

/-- C1 (counterexample): on a fitted model (3 samples, dense data,
non-precomputed metric) and a genuinely new batch (hash differs from the
stored one), `transform` does not return an embedding at all — it raises a
`TypeError`, because it passes 13 positional arguments to the joint
`optimize_layout`, which requires 14. -/
theorem transform_new_data_type_error :
    UEC_transform (fun _ => 0) ⟨3, 1, (fun _ _ => 0), false, false⟩
        (fun _ _ => 1) = .error .typeError := rfl

end UECPV
